import Mathlib

/-!
# Verification of the asfa content-addressed store core

Shallow embedding of the catalog/selection/verification engine of the
repository:

* `src/util.rs` — local hashing (`get_hash`, `get_explicit_hash`);
* `src/ssh.rs` — remote hashing (`SshSession::get_remote_hashes`) and
  bulk stat fetching (`SshSession::stat_bulk`);
* `src/file_listing.rs` — the selection pipeline (`FileListing`);
* `src/cmd/verify.rs` — the verification sweep (`Verify::run`).

Pure functions are translated directly; the remote side of an ssh
round-trip (exit status, captured stdout) is passed in as explicit data,
so every definition is executable.
-/

namespace Asfa

/-! ## Generic list helpers -/

/-- Recursion core of `chunksOf`, structural on a fuel counter so that the
kernel can evaluate it; the fuel is always at least the list length, so
the middle case is unreachable. -/
def chunksOfAux (n : Nat) : Nat → List α → List (List α)
  | _, [] => []
  | 0, _ :: _ => []
  | fuel + 1, x :: xs => (x :: xs).take n :: chunksOfAux n fuel ((x :: xs).drop n)

/-- Rust `slice::chunks(n)`: split a list into consecutive chunks of `n`
elements, the last chunk possibly shorter.  (`n = 0` panics in Rust and is
never reached; the only call site passes `16`.) -/
def chunksOf (n : Nat) (l : List α) : List (List α) :=
  if n = 0 then [] else chunksOfAux n l.length l

theorem chunksOfAux_fuel (n : Nat) (hn : n ≠ 0) :
    ∀ (fuel fuel' : Nat) (l : List α), l.length ≤ fuel → l.length ≤ fuel' →
      chunksOfAux n fuel l = chunksOfAux n fuel' l := by
  intro fuel
  induction fuel with
  | zero =>
    intro fuel' l hl hl'
    have : l = [] := List.length_eq_zero.mp (Nat.le_zero.mp hl)
    subst this
    cases fuel' <;> rfl
  | succ fuel ih =>
    intro fuel' l hl hl'
    cases l with
    | nil => cases fuel' <;> rfl
    | cons x xs =>
      cases fuel' with
      | zero => simp at hl'
      | succ fuel' =>
        simp only [chunksOfAux]
        rw [ih fuel' ((x :: xs).drop n)
          (by simp only [List.length_drop, List.length_cons] at hl ⊢; omega)
          (by simp only [List.length_drop, List.length_cons] at hl' ⊢; omega)]

theorem chunksOf_nil (n : Nat) : chunksOf n ([] : List α) = [] := by
  by_cases hn : n = 0 <;> simp [chunksOf, hn, chunksOfAux]

theorem chunksOf_cons (n : Nat) (l : List α) (hn : n ≠ 0) (hl : l ≠ []) :
    chunksOf n l = l.take n :: chunksOf n (l.drop n) := by
  cases l with
  | nil => cases hl rfl
  | cons x xs =>
    simp only [chunksOf, if_neg hn, List.length_cons, chunksOfAux]
    rw [chunksOfAux_fuel n hn xs.length ((x :: xs).drop n).length ((x :: xs).drop n)
      (by simp only [List.length_drop, List.length_cons]; omega) le_rfl]

/-- Helper for `make_unique`: emit elements in order, skipping any element
already seen (`seen` accumulates emitted elements).  This is the behaviour
of `Itertools::unique` used by `FileListing::make_unique`
(`src/file_listing.rs` lines 339–341): duplicates removed, first
occurrence kept. -/
def uniqueAux [DecidableEq α] (seen : List α) : List α → List α
  | [] => []
  | x :: xs =>
    if x ∈ seen then uniqueAux seen xs
    else x :: uniqueAux (x :: seen) xs

/-- `FileListing::make_unique` (`src/file_listing.rs` lines 339–341):
`indices.into_iter().unique().collect()`. -/
def make_unique [DecidableEq α] (l : List α) : List α :=
  uniqueAux [] l

theorem mem_uniqueAux [DecidableEq α] (seen : List α) (l : List α) (a : α) :
    a ∈ uniqueAux seen l ↔ a ∈ l ∧ a ∉ seen := by
  induction l generalizing seen with
  | nil => simp [uniqueAux]
  | cons x xs ih =>
    by_cases hx : x ∈ seen
    · simp only [uniqueAux, if_pos hx, ih, List.mem_cons]
      constructor
      · rintro ⟨h1, h2⟩; exact ⟨Or.inr h1, h2⟩
      · rintro ⟨h1 | h1, h2⟩
        · exact absurd (h1 ▸ hx) h2
        · exact ⟨h1, h2⟩
    · simp only [uniqueAux, if_neg hx, List.mem_cons, ih]
      by_cases hax : a = x
      · subst hax; simp [hx]
      · simp [hax]

theorem mem_make_unique [DecidableEq α] (l : List α) (a : α) :
    a ∈ make_unique l ↔ a ∈ l := by
  simp [make_unique, mem_uniqueAux]

theorem nodup_uniqueAux [DecidableEq α] (seen : List α) (l : List α) :
    (uniqueAux seen l).Nodup := by
  induction l generalizing seen with
  | nil => simp [uniqueAux]
  | cons x xs ih =>
    by_cases hx : x ∈ seen
    · simpa [uniqueAux, if_pos hx] using ih seen
    · simp only [uniqueAux, if_neg hx]
      refine List.nodup_cons.mpr ⟨fun hc => ?_, ih (x :: seen)⟩
      exact ((mem_uniqueAux _ _ _).mp hc).2 (List.mem_cons_self x seen)

theorem nodup_make_unique [DecidableEq α] (l : List α) :
    (make_unique l).Nodup :=
  nodup_uniqueAux [] l

theorem indexOf_pairwise_uniqueAux [DecidableEq α] (l : List α)
    (seen : List α) :
    List.Pairwise (fun a b => l.indexOf a < l.indexOf b)
      (uniqueAux seen l) := by
  induction l generalizing seen with
  | nil => simp [uniqueAux]
  | cons x xs ih =>
    by_cases hx : x ∈ seen
    · simp only [uniqueAux, if_pos hx]
      refine List.Pairwise.imp_of_mem ?_ (ih seen)
      intro a b ha hb hlt
      have hax : a ≠ x := by
        rintro rfl
        exact ((mem_uniqueAux _ _ _).mp ha).2 hx
      have hbx : b ≠ x := by
        rintro rfl
        exact ((mem_uniqueAux _ _ _).mp hb).2 hx
      rw [List.indexOf_cons_ne _ (Ne.symm hax), List.indexOf_cons_ne _ (Ne.symm hbx)]
      omega
    · simp only [uniqueAux, if_neg hx]
      constructor
      · intro b hb
        have hbx : b ≠ x := by
          rintro rfl
          exact ((mem_uniqueAux _ _ _).mp hb).2 (List.mem_cons_self b seen)
        rw [List.indexOf_cons_self, List.indexOf_cons_ne _ (Ne.symm hbx)]
        omega
      · refine List.Pairwise.imp_of_mem ?_ (ih (x :: seen))
        intro a b ha hb hlt
        have hax : a ≠ x := by
          rintro rfl
          exact ((mem_uniqueAux _ _ _).mp ha).2 (List.mem_cons_self a seen)
        have hbx : b ≠ x := by
          rintro rfl
          exact ((mem_uniqueAux _ _ _).mp hb).2 (List.mem_cons_self b seen)
        rw [List.indexOf_cons_ne _ (Ne.symm hax), List.indexOf_cons_ne _ (Ne.symm hbx)]
        omega

theorem indexOf_pairwise_make_unique [DecidableEq α] (l : List α) :
    List.Pairwise (fun a b => l.indexOf a < l.indexOf b) (make_unique l) :=
  indexOf_pairwise_uniqueAux l []

/-- Deduplicating is idempotent across a pipeline step: re-deduplicating an
already deduplicated prefix gives the same result as deduplicating the raw
concatenation. -/
theorem uniqueAux_append_uniqueAux [DecidableEq α] (seen : List α)
    (l adds : List α) :
    uniqueAux seen (uniqueAux seen l ++ adds) = uniqueAux seen (l ++ adds) := by
  induction l generalizing seen with
  | nil => simp [uniqueAux]
  | cons x xs ih =>
    by_cases hx : x ∈ seen
    · simp only [uniqueAux, if_pos hx, List.cons_append]
      exact ih seen
    · simp only [uniqueAux, if_neg hx, List.cons_append]
      rw [ih (x :: seen)]
      rfl

theorem make_unique_append_make_unique [DecidableEq α] (l adds : List α) :
    make_unique (make_unique l ++ adds) = make_unique (l ++ adds) :=
  uniqueAux_append_uniqueAux [] l adds

/-! ## Hash engine

`src/util.rs` (local hashing) and `src/ssh.rs` (remote hashing).
Bytes are modelled as `Nat` (with `< 256` side conditions where the `u8`
range matters); strings as `List Char` (all strings involved are ASCII,
so Rust's byte slicing coincides with character slicing). -/

/-- The space character (written via its code point). -/
def spaceChar : Char := Char.ofNat 32

/-- One character of the `base64::URL_SAFE` alphabet
(`A–Z`, `a–z`, `0–9`, `-`, `_`). -/
def b64Char (n : Nat) : Char :=
  if n < 26 then Char.ofNat (65 + n)
  else if n < 52 then Char.ofNat (97 + (n - 26))
  else if n < 62 then Char.ofNat (48 + (n - 52))
  else if n = 62 then '-'
  else '_'

/-- `base64::encode_config(bytes, base64::URL_SAFE)`: URL-safe alphabet,
with `=` padding (the `URL_SAFE` config pads). -/
def base64UrlEncode : List Nat → List Char
  | [] => []
  | [b1] => [b64Char (b1 / 4), b64Char (b1 % 4 * 16), '=', '=']
  | [b1, b2] =>
    [b64Char (b1 / 4), b64Char (b1 % 4 * 16 + b2 / 16), b64Char (b2 % 16 * 4), '=']
  | b1 :: b2 :: b3 :: rest =>
    b64Char (b1 / 4) :: b64Char (b1 % 4 * 16 + b2 / 16) ::
      b64Char (b2 % 16 * 4 + b3 / 64) :: b64Char (b3 % 64) :: base64UrlEncode rest

theorem length_base64UrlEncode : (l : List Nat) →
    (base64UrlEncode l).length = 4 * ((l.length + 2) / 3)
  | [] => rfl
  | [_] => by simp [base64UrlEncode]
  | [_, _] => by simp [base64UrlEncode]
  | _ :: _ :: _ :: rest => by
    simp only [base64UrlEncode, List.length_cons, length_base64UrlEncode rest]
    omega

/-- One lowercase hexadecimal digit (as printed by `sha256sum`/`sha512sum`). -/
def hexDigit (n : Nat) : Char :=
  if n < 10 then Char.ofNat (48 + n) else Char.ofNat (87 + n)

/-- Lowercase hex encoding of a byte sequence (the format of the digest
field of `sha256sum` output). -/
def hexEncode : List Nat → List Char
  | [] => []
  | b :: rest => hexDigit (b / 16) :: hexDigit (b % 16) :: hexEncode rest

/-- Value of one hex digit, accepting both cases (as `hex::decode` does). -/
def hexVal (c : Char) : Option Nat :=
  if 48 ≤ c.toNat ∧ c.toNat ≤ 57 then some (c.toNat - 48)
  else if 97 ≤ c.toNat ∧ c.toNat ≤ 102 then some (c.toNat - 87)
  else if 65 ≤ c.toNat ∧ c.toNat ≤ 70 then some (c.toNat - 55)
  else none

/-- `hex::decode`: `none` on odd length or any non-hex character. -/
def hexDecode : List Char → Option (List Nat)
  | [] => some []
  | [_] => none
  | c1 :: c2 :: rest =>
    match hexVal c1, hexVal c2, hexDecode rest with
    | some hi, some lo, some r => some ((16 * hi + lo) :: r)
    | _, _, _ => none

theorem hexVal_hexDigit : ∀ n, n < 16 → hexVal (hexDigit n) = some n := by decide

theorem hexDigit_not_whitespace : ∀ n, n < 16 → (hexDigit n).isWhitespace = false := by
  decide

theorem hexDecode_hexEncode : ∀ l : List Nat, (∀ b ∈ l, b < 256) →
    hexDecode (hexEncode l) = some l
  | [], _ => by simp [hexEncode, hexDecode]
  | b :: rest, h => by
    have hb : b < 256 := h b (List.mem_cons_self _ _)
    have h1 : b / 16 < 16 := by omega
    have h2 : b % 16 < 16 := by omega
    have ih := hexDecode_hexEncode rest (fun x hx => h x (List.mem_cons_of_mem _ hx))
    simp only [hexEncode, hexDecode, hexVal_hexDigit _ h1, hexVal_hexDigit _ h2, ih]
    have : 16 * (b / 16) + b % 16 = b := by omega
    rw [this]

theorem hexEncode_ne_nil (l : List Nat) (h : l ≠ []) : hexEncode l ≠ [] := by
  cases l with
  | nil => cases h rfl
  | cons b rest => simp [hexEncode]

theorem hexEncode_not_whitespace (l : List Nat) (hb : ∀ b ∈ l, b < 256) :
    ∀ c ∈ hexEncode l, c.isWhitespace = false := by
  induction l with
  | nil => intro c hc; simp [hexEncode] at hc
  | cons b rest ih =>
    intro c hc
    have hblt : b < 256 := hb b (List.mem_cons_self _ _)
    rcases List.mem_cons.mp hc with rfl | hc
    · exact hexDigit_not_whitespace _ (by omega)
    rcases List.mem_cons.mp hc with rfl | hc
    · exact hexDigit_not_whitespace _ (by omega)
    · exact ih (fun x hx => hb x (List.mem_cons_of_mem _ hx)) c hc

/-- Rust `str::split_whitespace().next()`: skip leading whitespace, then
take the maximal run of non-whitespace characters; `none` when the string
is all whitespace. -/
def firstToken (l : List Char) : Option (List Char) :=
  match l.dropWhile Char.isWhitespace with
  | [] => none
  | c :: cs => some ((c :: cs).takeWhile (fun ch => !ch.isWhitespace))

theorem takeWhile_append_cons (p : α → Bool) (tok : List α) (x : α)
    (rest : List α) (h : ∀ c ∈ tok, p c = true) (hx : p x = false) :
    (tok ++ x :: rest).takeWhile p = tok := by
  induction tok with
  | nil => simp [List.takeWhile_cons, hx]
  | cons a as ih =>
    have ha : p a = true := h a (List.mem_cons_self _ _)
    simp only [List.cons_append, List.takeWhile_cons, ha, if_true]
    rw [ih (fun c hc => h c (List.mem_cons_of_mem _ hc))]

theorem firstToken_append (tok rest : List Char) (hne : tok ≠ [])
    (hws : ∀ c ∈ tok, c.isWhitespace = false) :
    firstToken (tok ++ spaceChar :: rest) = some tok := by
  cases tok with
  | nil => cases hne rfl
  | cons c cs =>
    have hc : c.isWhitespace = false := hws c (List.mem_cons_self _ _)
    have hdrop : (c :: (cs ++ spaceChar :: rest)).dropWhile Char.isWhitespace =
        c :: (cs ++ spaceChar :: rest) := by
      simp [List.dropWhile_cons, hc]
    rw [firstToken, List.cons_append, hdrop]
    have := takeWhile_append_cons (fun ch => !ch.isWhitespace) (c :: cs) spaceChar rest
      (fun x hx => by simp [hws x hx]) (by decide)
    simp only [List.cons_append] at this
    show some (List.takeWhile (fun ch => !ch.isWhitespace)
      (c :: (cs ++ spaceChar :: rest))) = some (c :: cs)
    rw [this]

/-- Rust string slicing `&s[..n]`: defined exactly when `n` is in range,
a panic (modelled as `none`) otherwise. -/
def sliceStr (s : List Char) (n : Nat) : Option (List Char) :=
  if n ≤ s.length then some (s.take n) else none

/-- The remote hashing command chosen by `SshSession::get_remote_hashes`
(`src/ssh.rs` lines 322–330). -/
inductive HashCmd
  | sha256sum
  | sha512sum
  deriving DecidableEq

/-- Errors of the embedded `src/ssh.rs` functions, one constructor per
`bail!`/panic site, carrying the formatted arguments. -/
inductive SshError
  | lengthZero
  | lengthTooLarge
  | remoteToolMissing (hasher : HashCmd)
  | remoteHashExit (status : Nat)
  | hashCountMismatch (computed requested : Nat)
  | panicOutOfRange
  | statCountMismatch (requested got : Nat)
  deriving DecidableEq

/-- Algorithm selection of `SshSession::get_remote_hashes`
(`src/ssh.rs` lines 322–330): `length == 0` and `length > 64` bail,
`length <= 32` picks `sha256sum`, otherwise `sha512sum`. -/
def hasherFor (length : Nat) : Except SshError HashCmd :=
  if length = 0 then Except.error SshError.lengthZero
  else if length ≤ 32 then Except.ok HashCmd.sha256sum
  else if length ≤ 64 then Except.ok HashCmd.sha512sum
  else Except.error SshError.lengthTooLarge

/-- Errors of the embedded `src/util.rs::get_hash`, one constructor per
`bail!`/panic site. -/
inductive UtilError
  | lengthZero
  | lengthTooLarge
  | panicOutOfRange
  deriving DecidableEq

/-- `util::get_explicit_hash` (`src/util.rs` lines 35–49) minus the file
IO: the digest of the file content is the `digest` argument; the function
base64-encodes it with the URL-safe alphabet. -/
def get_explicit_hash (digest : List Nat) : List Char :=
  base64UrlEncode digest

/-- The final `Ok(hash[..length as usize].to_string())` of `get_hash`:
Rust slicing, which panics out of range
(`UtilError.panicOutOfRange`). -/
def truncate_hash (hash : List Char) (length : Nat) :
    Except UtilError (List Char) :=
  match sliceStr hash length with
  | some s => Except.ok s
  | none => Except.error UtilError.panicOutOfRange

/-- `util::get_hash` (`src/util.rs` lines 22–33).  The file content is the
abstract `content`; `sha256`/`sha512` are the digest functions of the
`sha2` crate (32- and 64-byte digests of the content).  The selected
digest is base64-encoded and then truncated to `length` characters. -/
def get_hash (sha256 sha512 : α → List Nat) (content : α) (length : Nat) :
    Except UtilError (List Char) :=
  if length = 0 then Except.error UtilError.lengthZero
  else if length ≤ 32 then
    truncate_hash (get_explicit_hash (sha256 content)) length
  else if length ≤ 64 then
    truncate_hash (get_explicit_hash (sha512 content)) length
  else Except.error UtilError.lengthTooLarge

/-- Parsing of one stdout line of the remote hash command
(`src/ssh.rs` lines 351–356): first whitespace-separated token, then
`hex::decode`, dropping the line if either step fails. -/
def parseRemoteHashLine (l : List Char) : Option (List Nat) :=
  (firstToken l).bind hexDecode

/-- Exit-status dispatch and stdout parsing of `get_remote_hashes`
(`src/ssh.rs` lines 341–362), after the hashing command `hasher` has been
chosen: exit 0 parses the output (count-checked against the number of
requested paths), exit 127 means the hashing tool is missing, anything
else is a remote failure. -/
def remote_hash_run (paths : List String) (length : Nat) (hasher : HashCmd)
    (exitStatus : Nat) (stdoutLines : List (List Char)) :
    Except SshError (List (List Char)) :=
  if exitStatus = 0 then
    match (stdoutLines.filterMap parseRemoteHashLine).mapM
        (fun d => sliceStr (base64UrlEncode d) length) with
    | none => Except.error SshError.panicOutOfRange
    | some hashes =>
      if hashes.length ≠ paths.length then
        Except.error (SshError.hashCountMismatch hashes.length paths.length)
      else Except.ok hashes
  else if exitStatus = 127 then
    Except.error (SshError.remoteToolMissing hasher)
  else Except.error (SshError.remoteHashExit exitStatus)

/-- `SshSession::get_remote_hashes` (`src/ssh.rs` lines 315–363).

The ssh round trip is modelled by its observable result: `exitStatus` and
`stdoutLines` (the lines of the captured stdout).  Command-string
construction (quoting, base-folder prefixes) affects only what the remote
shell runs, not the parsing embedded here.  The hashing command is chosen
by the same inline if-chain as `hasherFor`; per line, the first token is
hex-decoded and the digest is base64-encoded then sliced to `length`
characters (Rust slicing panics out of range, before the count check,
modelled as `SshError.panicOutOfRange`). -/
def get_remote_hashes (paths : List String) (length : Nat) (exitStatus : Nat)
    (stdoutLines : List (List Char)) : Except SshError (List (List Char)) :=
  if length = 0 then Except.error SshError.lengthZero
  else if length ≤ 32 then
    remote_hash_run paths length HashCmd.sha256sum exitStatus stdoutLines
  else if length ≤ 64 then
    remote_hash_run paths length HashCmd.sha512sum exitStatus stdoutLines
  else Except.error SshError.lengthTooLarge

theorem mapM_sliceStr (len : Nat) (ds : List (List Nat))
    (h : ∀ d ∈ ds, len ≤ (base64UrlEncode d).length) :
    ds.mapM (fun d => sliceStr (base64UrlEncode d) len) =
      some (ds.map (fun d => (base64UrlEncode d).take len)) := by
  induction ds with
  | nil => rfl
  | cons d ds ih =>
    rw [List.mapM_cons]
    have hd : sliceStr (base64UrlEncode d) len =
        some ((base64UrlEncode d).take len) := by
      rw [sliceStr, if_pos (h d (List.mem_cons_self _ _))]
    rw [hd, ih (fun x hx => h x (List.mem_cons_of_mem _ hx))]
    rfl

theorem parseRemoteHashLine_wellFormed (d : List Nat) (nm : List Char)
    (hne : d ≠ []) (hb : ∀ b ∈ d, b < 256) :
    parseRemoteHashLine (hexEncode d ++ spaceChar :: nm) = some d := by
  rw [parseRemoteHashLine,
    firstToken_append (hexEncode d) nm (hexEncode_ne_nil d hne)
      (hexEncode_not_whitespace d hb)]
  simpa using hexDecode_hexEncode d hb

theorem filterMap_parseRemoteHashLine (ds : List (List Nat))
    (names : List (List Char)) (hlen : names.length = ds.length)
    (hne : ∀ d ∈ ds, d ≠ []) (hb : ∀ d ∈ ds, ∀ b ∈ d, b < 256) :
    (List.zipWith (fun d nm => hexEncode d ++ spaceChar :: nm) ds names).filterMap
      parseRemoteHashLine = ds := by
  induction ds generalizing names with
  | nil => simp
  | cons d ds ih =>
    cases names with
    | nil => simp at hlen
    | cons nm names =>
      rw [List.zipWith_cons_cons, List.filterMap_cons,
        parseRemoteHashLine_wellFormed d nm (hne d (List.mem_cons_self _ _))
          (hb d (List.mem_cons_self _ _))]
      rw [ih names (by simpa using hlen)
        (fun x hx => hne x (List.mem_cons_of_mem _ hx))
        (fun x hx => hb x (List.mem_cons_of_mem _ hx))]

/-! ## Selection engine — `FileListing` (`src/file_listing.rs`)

The catalog is `num_files` entries indexed `0..num_files`; a selection is
its `indices : Vec<usize>`.  Each operation consumes the listing and
returns the new `indices`; an `Err` return carries no listing, so a
failing operation adds nothing. -/

/-- Errors of the embedded `FileListing` operations, one constructor per
`bail!` site. -/
inductive FlError
  | invalidIndex (idx : Int)
  | noMatchingRemoteFile (name : String)
  deriving DecidableEq

/-- Resolution of one signed index (`src/file_listing.rs` line 80):
`if *idx < 0 { num_files + *idx } else { *idx } as usize`. -/
def resolve_index (numFiles : Nat) (idx : Int) : Nat :=
  (if idx < 0 then (numFiles : Int) + idx else idx).toNat

/-- `FileListing::by_indices` (`src/file_listing.rs` lines 65–89): empty
input is a no-op; otherwise every raw index is bounds-checked against
`[-num_files, num_files)` (bailing at the first violation, before
anything is appended), then the resolved indices are appended and the
result deduplicated. -/
def by_indices (numFiles : Nat) (cur : List Nat) (idxs : List Int) :
    Except FlError (List Nat) :=
  if idxs.isEmpty then Except.ok cur
  else
    match idxs.find? (fun i =>
        decide (i < -(numFiles : Int)) || decide ((numFiles : Int) ≤ i)) with
    | some i => Except.error (FlError.invalidIndex i)
    | none => Except.ok (make_unique (cur ++ idxs.map (resolve_index numFiles)))

/-- `FileListing::by_filter` (`src/file_listing.rs` lines 39–62).  The
regex match over the `HashMap` of all files is abstracted by `matched`:
the indices whose file name matches the regex, in the map's (arbitrary)
iteration order; `none` models an absent filter (a no-op).  (The
`Regex::new` failure path is not modelled; it adds nothing either.) -/
def by_filter (cur : List Nat) (matched : Option (List Nat)) : List Nat :=
  match matched with
  | none => cur
  | some adds => make_unique (cur ++ adds)

/-- `FileListing::by_hash` (`src/file_listing.rs` lines 92–141).  Hashing
a local file at `prefix_length` and looking it up in the `hash_to_file`
map is abstracted by `lookup`.  Found indices are pushed in order; a
missing one bails (when `bailWhenMissing`) or is skipped; finally the
whole index list is deduplicated. -/
def by_hash (cur : List Nat) (lookup : String → Option Nat)
    (names : List String) (bailWhenMissing : Bool) :
    Except FlError (List Nat) :=
  if names.isEmpty then Except.ok cur
  else
    match names.foldlM (fun acc n =>
      match lookup n with
      | some idx => Except.ok (acc ++ [idx])
      | none =>
        if bailWhenMissing then Except.error (FlError.noMatchingRemoteFile n)
        else Except.ok acc) [] with
    | Except.error e => Except.error e
    | Except.ok adds => Except.ok (make_unique (cur ++ adds))

/-- `FileListing::with_all` (`src/file_listing.rs` lines 271–278): if the
flag is set, append all of `0..num_files` and deduplicate. -/
def with_all (numFiles : Nat) (cur : List Nat) (selectAll : Bool) : List Nat :=
  if selectAll then make_unique (cur ++ List.range numFiles) else cur

/-- `FileListing::first` (`src/file_listing.rs` lines 154–162):
`indices.into_iter().take(n)`; `None` is the identity. -/
def first (cur : List Nat) (n : Option Nat) : List Nat :=
  match n with
  | some n => cur.take n
  | none => cur

/-- `FileListing::last` (`src/file_listing.rs` lines 171–184):
`skip(if num_indices > n { num_indices - n } else { 0 })`; `None` is the
identity. -/
def last (cur : List Nat) (n : Option Nat) : List Nat :=
  match n with
  | some n => cur.drop (if cur.length > n then cur.length - n else 0)
  | none => cur

/-- `FileListing::revert` (`src/file_listing.rs` lines 235–240). -/
def revert (cur : List Nat) (doRevert : Bool) : List Nat :=
  if doRevert then cur.reverse else cur

/-- `FileListing::sort_by_size` (`src/file_listing.rs` lines 250–258):
`indices.sort_by_key(|idx| stats[idx].size.unwrap())`.  `ensure_stats`
has run, so every selected index has a stat with a size, modelled by the
total key function `sz`.  Rust's `sort_by_key` is a stable ascending
sort; a stable sort's output is uniquely determined, so it is embedded as
the (stable) insertion sort. -/
def sort_by_size (sz : Nat → Nat) (cur : List Nat) (sortBySize : Bool) :
    List Nat :=
  if sortBySize then cur.insertionSort (fun a b => sz a ≤ sz b) else cur

/-! ## Bulk stats — `SshSession::stat_bulk` and `FileListing::ensure_stats` -/

/-- `ssh2::FileStat` restricted to the fields `stat_bulk` populates;
`uid`, `gid`, `perm` and `atime` are always `None` there
(`src/ssh.rs` lines 431–438) and are omitted. -/
structure MFileStat where
  size : Option Nat
  mtime : Option Nat
  deriving DecidableEq

/-- Rust `str::parse::<u64>` on an ASCII token, as used on the `%Y` and
`%s` fields of the `stat` output: digits only.  (Overflow and an optional
leading plus sign are not exercised by the embedding.) -/
def parseNat? (l : List Char) : Option Nat :=
  if l ≠ [] ∧ l.all Char.isDigit then
    some (l.foldl (fun a c => 10 * a + (c.toNat - 48)) 0)
  else none

/-- Rust `str::split(sep)` for a one-character separator: the fragments
between separators, empty fragments included. -/
def splitOnChar (sep : Char) : List Char → List (List Char)
  | [] => [[]]
  | c :: rest =>
    if c = sep then [] :: splitOnChar sep rest
    else
      match splitOnChar sep rest with
      | [] => [[c]]
      | t :: ts => (c :: t) :: ts

/-- Parsing of one `find … | xargs stat -c '%Y %s %n'` output line
(`src/ssh.rs` lines 425–429): `mtime`, `size`, then the file name (the
remaining space-separated parts re-joined with spaces).  Returned as
`(mtime, size, name)` in the order the fields are consumed. -/
def parseStatLine (l : List Char) : Option Nat × Option Nat × List Char :=
  let parts := splitOnChar spaceChar l
  (parts.head?.bind parseNat?,
    ((parts.drop 1).head?.bind parseNat?,
      List.intercalate [spaceChar] (parts.drop 2)))

/-- `SshSession::prepend_base_folder` (`src/ssh.rs` lines 365–370):
`PathBuf::push` inserts a separator.  (Replacement semantics for absolute
paths is not exercised: stored paths are relative.) -/
def prepend_base_folder (folder p : List Char) : List Char :=
  folder ++ '/' :: p

/-- `SshSession::stat_bulk` (`src/ssh.rs` lines 402–450).  The remote
round trip is modelled by `findLines`, the stdout lines of the `find …
-print0 | xargs -0 stat -c '%Y %s %n'` command, which lists **every**
stored file in the remote's own order.  `requested` holds the requested
paths (already base-folder-prefixed, as built on lines 415–422); the
`HashSet` they are collected into is modelled by list membership and the
deduplicated count.  Each output line is kept — in find-output order — iff
its name field is a requested path; a count mismatch with the requested
set is fatal. -/
def stat_bulk (requested : List (List Char)) (findLines : List (List Char)) :
    Except SshError (List MFileStat) :=
  let stats := findLines.filterMap (fun l =>
    let parsed := parseStatLine l
    if parsed.2.2 ∈ requested then
      some { size := parsed.2.1, mtime := parsed.1 : MFileStat }
    else none)
  if stats.length ≠ (make_unique requested).length then
    Except.error
      (SshError.statCountMismatch (make_unique requested).length stats.length)
  else Except.ok stats

/-- `FileListing::ensure_stats` (`src/file_listing.rs` lines 326–337):
the stats cache is `self.indices.zip(raw_stats)` collected into a map —
the i-th returned stat is attributed to the i-th selected index. -/
def ensure_stats (indices : List Nat) (rawStats : List MFileStat) :
    List (Nat × MFileStat) :=
  indices.zip rawStats

/-- `HashMap::get` on the stats cache (selected indices are unique, so at
most one entry per key). -/
def statCacheLookup (cache : List (Nat × MFileStat)) (i : Nat) :
    Option MFileStat :=
  (cache.find? (fun p => p.1 == i)).map (fun p => p.2)

/-! ## Verification — `Verify::run` (`src/cmd/verify.rs`) -/

/-- One selected entry as seen by `Verify::run`: its two-segment relative
path, split into the folder name (`file.parent()`, the expected hash) and
the file name. -/
structure RFile where
  parent : List Char
  name : List Char
  deriving DecidableEq

/-- `src/cmd/verify.rs` line 82: `let chunk_size = 16`. -/
def verify_chunk_size : Nat := 16

/-- The sequence of `get_remote_hashes` calls issued by `Verify::run`
(`src/cmd/verify.rs` lines 82–85): one call per 16-file chunk, each with
the length argument `session.host.prefix_length`.  Each element is the
`(chunk, length)` argument pair of one call. -/
def verify_hash_requests (prefixLength : Nat) (files : List RFile) :
    List (List RFile × Nat) :=
  (chunksOf verify_chunk_size files).map (fun c => (c, prefixLength))

/-- The expected hash of one entry (`src/cmd/verify.rs` line 94):
`file.parent().unwrap()`, the entry's folder name. -/
def verify_expected_hash (f : RFile) : List Char := f.parent

/-- Errors of the embedded `Verify::run`, one per `bail!` site. -/
inductive VerifyError
  | noFilesToVerify
  | filesFailedToVerify (count : Nat)
  deriving DecidableEq

/-- The comparison sweep of `Verify::run` (`src/cmd/verify.rs` lines
87–119): the double loop over 16-file chunks and the fetched hashes of
each chunk, pushing each mismatching file onto the shared `failure`
vector.  `actuals` is the flat list of remote hashes (chunked exactly as
the files are). -/
def verify_sweep (files : List RFile) (actuals : List (List Char)) :
    List RFile :=
  ((chunksOf verify_chunk_size files).zip (chunksOf verify_chunk_size actuals)).foldl
    (fun failure fh =>
      (fh.1.zip fh.2).foldl
        (fun failure p =>
          if p.2 ≠ verify_expected_hash p.1 then failure ++ [p.1] else failure)
        failure)
    []

/-- The final outcome of `Verify::run` (`src/cmd/verify.rs` lines
123–127): fail, reporting the failure count, iff the sweep collected any
mismatch. -/
def verify_outcome (files : List RFile) (actuals : List (List Char)) :
    Except VerifyError Unit :=
  if 0 < (verify_sweep files actuals).length then
    Except.error (VerifyError.filesFailedToVerify (verify_sweep files actuals).length)
  else Except.ok ()

/-! ## Supporting lemmas about the chunked sweep -/

theorem zip_take_take : ∀ (n : Nat) (l : List α) (l' : List β),
    (l.take n).zip (l'.take n) = (l.zip l').take n
  | 0, _, _ => by simp
  | _ + 1, [], _ => by simp
  | _ + 1, _ :: _, [] => by simp
  | n + 1, x :: xs, y :: ys => by
    simp only [List.take_succ_cons, List.zip_cons_cons]
    rw [zip_take_take n xs ys]

theorem zip_drop_drop : ∀ (n : Nat) (l : List α) (l' : List β),
    (l.drop n).zip (l'.drop n) = (l.zip l').drop n
  | 0, _, _ => by simp
  | _ + 1, [], _ => by simp
  | _ + 1, _ :: _, [] => by simp
  | n + 1, x :: xs, y :: ys => by
    simp only [List.drop_succ_cons, List.zip_cons_cons]
    exact zip_drop_drop n xs ys

theorem foldl_chunked_fuel {γ : Type _} (n : Nat) (hn : n ≠ 0)
    (step : γ → α × β → γ) :
    ∀ (k : Nat) (l : List α) (l' : List β) (init : γ), l.length ≤ k →
      l.length = l'.length →
      ((chunksOf n l).zip (chunksOf n l')).foldl
          (fun acc fh => (fh.1.zip fh.2).foldl step acc) init =
        (l.zip l').foldl step init := by
  intro k
  induction k with
  | zero =>
    intro l l' init hk hlen
    have hl : l = [] := List.length_eq_zero.mp (Nat.le_zero.mp hk)
    subst hl
    have hl' : l' = [] := List.length_eq_zero.mp (by omega)
    subst hl'
    simp [chunksOf_nil]
  | succ k ih =>
    intro l l' init hk hlen
    by_cases hl : l = []
    · subst hl
      have hl' : l' = [] := List.length_eq_zero.mp (by simpa using hlen.symm)
      subst hl'
      simp [chunksOf_nil]
    · have hl' : l' ≠ [] := by
        intro e
        subst e
        exact hl (List.length_eq_zero.mp (by simpa using hlen))
      rw [chunksOf_cons n l hn hl, chunksOf_cons n l' hn hl',
        List.zip_cons_cons, List.foldl_cons]
      have hlpos : 0 < l.length := List.length_pos.mpr hl
      rw [ih (l.drop n) (l'.drop n) _
        (by simp only [List.length_drop]; omega)
        (by simp only [List.length_drop, hlen])]
      rw [zip_take_take, zip_drop_drop, ← List.foldl_append,
        List.take_append_drop]

theorem foldl_chunked {γ : Type _} (n : Nat) (hn : n ≠ 0)
    (step : γ → α × β → γ) (l : List α) (l' : List β) (init : γ)
    (hlen : l.length = l'.length) :
    ((chunksOf n l).zip (chunksOf n l')).foldl
        (fun acc fh => (fh.1.zip fh.2).foldl step acc) init =
      (l.zip l').foldl step init :=
  foldl_chunked_fuel n hn step l.length l l' init le_rfl hlen

theorem foldl_mismatch (pairs : List (RFile × List Char)) (acc : List RFile) :
    pairs.foldl (fun failure p =>
        if p.2 ≠ verify_expected_hash p.1 then failure ++ [p.1] else failure)
        acc =
      acc ++ (pairs.filter (fun p =>
        decide (p.2 ≠ verify_expected_hash p.1))).map Prod.fst := by
  induction pairs generalizing acc with
  | nil => simp
  | cons p ps ih =>
    rw [List.foldl_cons, List.filter_cons]
    by_cases hp : p.2 = verify_expected_hash p.1
    · rw [if_neg (not_not_intro hp), if_neg (by simp [hp]), ih]
    · rw [if_pos hp, if_pos (by simp [hp]), ih, List.map_cons]
      simp

theorem verify_sweep_eq (files : List RFile) (actuals : List (List Char))
    (hlen : files.length = actuals.length) :
    verify_sweep files actuals =
      ((files.zip actuals).filter (fun p =>
        decide (p.2 ≠ verify_expected_hash p.1))).map Prod.fst := by
  rw [verify_sweep,
    foldl_chunked verify_chunk_size (by decide) _ files actuals [] hlen,
    foldl_mismatch]
  simp

/-! ## Hash-engine lemmas -/

theorem hasherFor_ok (len : Nat) (h1 : 1 ≤ len) (h64 : len ≤ 64) :
    hasherFor len =
      Except.ok (if len ≤ 32 then HashCmd.sha256sum else HashCmd.sha512sum) := by
  rw [hasherFor, if_neg (by omega)]
  by_cases hle : len ≤ 32
  · rw [if_pos hle, if_pos hle]
  · rw [if_neg hle, if_pos (by omega), if_neg hle]

theorem remote_hash_run_127 (paths : List String) (length : Nat)
    (hasher : HashCmd) (stdoutLines : List (List Char)) :
    remote_hash_run paths length hasher 127 stdoutLines =
      Except.error (SshError.remoteToolMissing hasher) := by
  rw [remote_hash_run, if_neg (by decide), if_pos rfl]

theorem remote_hash_run_parsed (paths : List String) (length : Nat)
    (hasher : HashCmd) (stdoutLines : List (List Char))
    (hashes : List (List Char))
    (hsome : (stdoutLines.filterMap parseRemoteHashLine).mapM
        (fun d => sliceStr (base64UrlEncode d) length) = some hashes) :
    remote_hash_run paths length hasher 0 stdoutLines =
      if hashes.length ≠ paths.length then
        Except.error (SshError.hashCountMismatch hashes.length paths.length)
      else Except.ok hashes := by
  rw [remote_hash_run, if_pos rfl, hsome]

theorem get_remote_hashes_wellFormed (paths : List String) (len : Nat)
    (h1 : 1 ≤ len) (h64 : len ≤ 64) (ds : List (List Nat))
    (names : List (List Char)) (hnlen : names.length = ds.length)
    (hne : ∀ d ∈ ds, d ≠ []) (hb : ∀ d ∈ ds, ∀ b ∈ d, b < 256)
    (henc : ∀ d ∈ ds, len ≤ (base64UrlEncode d).length) :
    get_remote_hashes paths len 0
        (List.zipWith (fun d nm => hexEncode d ++ spaceChar :: nm) ds names) =
      if ds.length ≠ paths.length then
        Except.error (SshError.hashCountMismatch ds.length paths.length)
      else Except.ok (ds.map (fun d => (base64UrlEncode d).take len)) := by
  have hparse : ((List.zipWith (fun d nm => hexEncode d ++ spaceChar :: nm) ds
      names).filterMap parseRemoteHashLine).mapM
        (fun d => sliceStr (base64UrlEncode d) len) =
      some (ds.map (fun d => (base64UrlEncode d).take len)) := by
    rw [filterMap_parseRemoteHashLine ds names hnlen hne hb,
      mapM_sliceStr len ds henc]
  rw [get_remote_hashes, if_neg (by omega)]
  by_cases hle : len ≤ 32
  · rw [if_pos hle, remote_hash_run_parsed _ _ _ _ _ hparse, List.length_map]
  · rw [if_neg hle, if_pos (by omega), remote_hash_run_parsed _ _ _ _ _ hparse,
      List.length_map]

/-- C3: for every length in `[1, 64]` and every byte content, the local
hash computation (`util::get_hash`) and the remote hash computation
(`SshSession::get_remote_hashes`) select the same digest algorithm by the
same threshold (`length ≤ 32` ⇒ 256-bit, `33 ≤ length ≤ 64` ⇒ 512-bit)
and both produce the token by base64-encoding the raw digest bytes with
the URL-safe alphabet and then truncating (not re-encoding) to `length`
characters — so equal content yields equal tokens on both sides. -/
theorem local_remote_hash_agreement {α : Type} (len : Nat) (h1 : 1 ≤ len)
    (h64 : len ≤ 64) (sha256 sha512 : α → List Nat) (content : α)
    (hl256 : (sha256 content).length = 32)
    (hl512 : (sha512 content).length = 64)
    (hb256 : ∀ b ∈ sha256 content, b < 256)
    (hb512 : ∀ b ∈ sha512 content, b < 256)
    (p : String) (nm : List Char) :
    hasherFor len =
      Except.ok (if len ≤ 32 then HashCmd.sha256sum else HashCmd.sha512sum) ∧
    get_hash sha256 sha512 content len =
      Except.ok ((base64UrlEncode
        (if len ≤ 32 then sha256 content else sha512 content)).take len) ∧
    get_remote_hashes [p] len 0
        [hexEncode (if len ≤ 32 then sha256 content else sha512 content) ++
          spaceChar :: nm] =
      Except.ok [(base64UrlEncode
        (if len ≤ 32 then sha256 content else sha512 content)).take len] := by
  refine ⟨hasherFor_ok len h1 h64, ?_, ?_⟩
  · by_cases hle : len ≤ 32
    · rw [if_pos hle, get_hash, if_neg (by omega), if_pos hle, truncate_hash,
        sliceStr, if_pos (show len ≤ (get_explicit_hash (sha256 content)).length by
          rw [get_explicit_hash, length_base64UrlEncode, hl256]; omega)]
      rfl
    · rw [if_neg hle, get_hash, if_neg (by omega), if_neg hle, if_pos (by omega),
        truncate_hash, sliceStr,
        if_pos (show len ≤ (get_explicit_hash (sha512 content)).length by
          rw [get_explicit_hash, length_base64UrlEncode, hl512]; omega)]
      rfl
  · by_cases hle : len ≤ 32
    · have h := get_remote_hashes_wellFormed [p] len h1 h64 [sha256 content] [nm]
        rfl
        (by intro d hd; rw [List.mem_singleton.mp hd]; intro e
            rw [e] at hl256; simp at hl256)
        (by intro d hd; rw [List.mem_singleton.mp hd]; exact hb256)
        (by intro d hd; rw [List.mem_singleton.mp hd]
            rw [length_base64UrlEncode, hl256]; omega)
      rw [if_pos hle]
      simpa using h
    · have h := get_remote_hashes_wellFormed [p] len h1 h64 [sha512 content] [nm]
        rfl
        (by intro d hd; rw [List.mem_singleton.mp hd]; intro e
            rw [e] at hl512; simp at hl512)
        (by intro d hd; rw [List.mem_singleton.mp hd]; exact hb512)
        (by intro d hd; rw [List.mem_singleton.mp hd]
            rw [length_base64UrlEncode, hl512]; omega)
      rw [if_neg hle]
      simpa using h

/-- C3 witness: a concrete instantiation (length 16, constant digest
functions on a unit content type). -/
theorem local_remote_hash_agreement_witness :
    get_hash (fun _ : Unit => List.replicate 32 7)
        (fun _ => List.replicate 64 7) () 16 =
      Except.ok ((base64UrlEncode (List.replicate 32 7)).take 16) ∧
    get_remote_hashes ["p"] 16 0
        [hexEncode (List.replicate 32 7) ++ spaceChar :: []] =
      Except.ok [(base64UrlEncode (List.replicate 32 7)).take 16] := by
  have h := local_remote_hash_agreement (α := Unit) 16 (by decide) (by decide)
    (fun _ => List.replicate 32 7) (fun _ => List.replicate 64 7) ()
    (by decide) (by decide) (by decide) (by decide) "p" []
  rcases h with ⟨-, h2, h3⟩
  exact ⟨by simpa using h2, by simpa using h3⟩

/-- C9: for every length in `[1, 64]`, the base64-encoded digest string
always has at least `length` characters (44 characters for the 256-bit
digest used when `length ≤ 32`, 88 for the 512-bit digest used when
`33 ≤ length ≤ 64`), so the final truncation is in range and
`get_hash` returns a token of exactly `length` characters instead of
panicking. -/
theorem get_hash_no_panic {α : Type} (len : Nat) (h1 : 1 ≤ len)
    (h64 : len ≤ 64) (sha256 sha512 : α → List Nat) (content : α)
    (hl256 : (sha256 content).length = 32)
    (hl512 : (sha512 content).length = 64) :
    (get_explicit_hash (sha256 content)).length = 44 ∧
    (get_explicit_hash (sha512 content)).length = 88 ∧
    ∃ t, get_hash sha256 sha512 content len = Except.ok t ∧
      t.length = len := by
  have e256 : (get_explicit_hash (sha256 content)).length = 44 := by
    rw [get_explicit_hash, length_base64UrlEncode, hl256]
  have e512 : (get_explicit_hash (sha512 content)).length = 88 := by
    rw [get_explicit_hash, length_base64UrlEncode, hl512]
  refine ⟨e256, e512, ?_⟩
  by_cases hle : len ≤ 32
  · refine ⟨(get_explicit_hash (sha256 content)).take len, ?_, ?_⟩
    · rw [get_hash, if_neg (by omega), if_pos hle, truncate_hash, sliceStr,
        if_pos (by rw [e256]; omega)]
    · rw [List.length_take, e256]; omega
  · refine ⟨(get_explicit_hash (sha512 content)).take len, ?_, ?_⟩
    · rw [get_hash, if_neg (by omega), if_neg hle, if_pos (by omega),
        truncate_hash, sliceStr, if_pos (by rw [e512]; omega)]
    · rw [List.length_take, e512]; omega

/-- C9 witness: a concrete instantiation at length 40 (512-bit side). -/
theorem get_hash_no_panic_witness :
    ∃ t, get_hash (fun _ : Unit => List.replicate 32 7)
        (fun _ => List.replicate 64 9) () 40 = Except.ok t ∧
      t.length = 40 :=
  (get_hash_no_panic 40 (by decide) (by decide)
    (fun _ : Unit => List.replicate 32 7) (fun _ => List.replicate 64 9) ()
    (by decide) (by decide)).2.2

/-- C5: `get_remote_hashes` fails with the tool-missing error on the
reserved exit code 127 (naming the hashing command chosen from the
length), fails with the hash-count-mismatch error whenever the number of
hashes parsed from the remote output differs from the number of requested
paths, and on success returns one token per input path, in the order of
the output lines — which, per the remote tool's contract, is the order of
the input paths (the i-th line carries the digest of the i-th path). -/
theorem get_remote_hashes_spec :
    (∀ (paths : List String) (len : Nat) (stdoutLines : List (List Char)),
      1 ≤ len → len ≤ 64 →
      get_remote_hashes paths len 127 stdoutLines =
        Except.error (SshError.remoteToolMissing
          (if len ≤ 32 then HashCmd.sha256sum else HashCmd.sha512sum))) ∧
    (∀ (paths : List String) (len : Nat) (ds : List (List Nat))
        (names : List (List Char)),
      1 ≤ len → len ≤ 64 → names.length = ds.length →
      (∀ d ∈ ds, d ≠ []) → (∀ d ∈ ds, ∀ b ∈ d, b < 256) →
      (∀ d ∈ ds, len ≤ (base64UrlEncode d).length) →
      ds.length ≠ paths.length →
      get_remote_hashes paths len 0
          (List.zipWith (fun d nm => hexEncode d ++ spaceChar :: nm) ds names) =
        Except.error (SshError.hashCountMismatch ds.length paths.length)) ∧
    (∀ (paths : List String) (len : Nat) (ds : List (List Nat))
        (names : List (List Char)),
      1 ≤ len → len ≤ 64 → names.length = ds.length →
      (∀ d ∈ ds, d ≠ []) → (∀ d ∈ ds, ∀ b ∈ d, b < 256) →
      (∀ d ∈ ds, len ≤ (base64UrlEncode d).length) →
      ds.length = paths.length →
      get_remote_hashes paths len 0
          (List.zipWith (fun d nm => hexEncode d ++ spaceChar :: nm) ds names) =
        Except.ok (ds.map (fun d => (base64UrlEncode d).take len))) := by
  refine ⟨?_, ?_, ?_⟩
  · intro paths len lines h1 h64
    rw [get_remote_hashes, if_neg (by omega)]
    by_cases hle : len ≤ 32
    · rw [if_pos hle, remote_hash_run_127, if_pos hle]
    · rw [if_neg hle, if_pos (by omega), remote_hash_run_127, if_neg hle]
  · intro paths len ds names h1 h64 hnlen hne hb henc hcount
    rw [get_remote_hashes_wellFormed paths len h1 h64 ds names hnlen hne hb henc,
      if_pos hcount]
  · intro paths len ds names h1 h64 hnlen hne hb henc hcount
    rw [get_remote_hashes_wellFormed paths len h1 h64 ds names hnlen hne hb henc,
      if_neg (not_not_intro hcount)]

/-- C5 witness: concrete instantiations of the three guarantees. -/
theorem get_remote_hashes_spec_witness :
    get_remote_hashes ["x"] 4 127 [] =
      Except.error (SshError.remoteToolMissing HashCmd.sha256sum) ∧
    get_remote_hashes ["x", "y"] 4 0
        (List.zipWith (fun d nm => hexEncode d ++ spaceChar :: nm)
          [[7, 7, 7]] [[]]) =
      Except.error (SshError.hashCountMismatch 1 2) ∧
    get_remote_hashes ["x"] 4 0
        (List.zipWith (fun d nm => hexEncode d ++ spaceChar :: nm)
          [[7, 7, 7]] [[]]) =
      Except.ok [(base64UrlEncode [7, 7, 7]).take 4] := by
  refine ⟨?_, ?_, ?_⟩
  · have h := get_remote_hashes_spec.1 ["x"] 4 [] (by decide) (by decide)
    simpa using h
  · exact get_remote_hashes_spec.2.1 ["x", "y"] 4 [[7, 7, 7]] [[]]
      (by decide) (by decide) rfl (by decide) (by decide) (by decide) (by decide)
  · have h := get_remote_hashes_spec.2.2 ["x"] 4 [[7, 7, 7]] [[]]
      (by decide) (by decide) rfl (by decide) (by decide) (by decide) rfl
    simpa using h

/-! ## Selection claims -/

/-- C4: for a catalog of size `N` and every `0 ≤ i < N`, `by_indices [i]`
on the empty selection selects exactly catalog entry `i`, and
`by_indices [-1]` selects entry `N-1` (a negative raw index resolves to
`N + raw`); for every raw index outside `[-N, N)`, `by_indices` fails
with `InvalidIndex`, and — the bounds check running before anything is
appended — the failing call adds no index: the error return carries no
selection at all. -/
theorem by_indices_spec :
    (∀ N i : Nat, i < N → by_indices N [] [(i : Int)] = Except.ok [i]) ∧
    (∀ N : Nat, 0 < N → by_indices N [] [(-1 : Int)] = Except.ok [N - 1]) ∧
    (∀ (N : Nat) (cur : List Nat) (idxs : List Int),
      (∃ i ∈ idxs, i < -(N : Int) ∨ (N : Int) ≤ i) →
      ∃ j ∈ idxs, (j < -(N : Int) ∨ (N : Int) ≤ j) ∧
        by_indices N cur idxs = Except.error (FlError.invalidIndex j)) := by
  refine ⟨?_, ?_, ?_⟩
  · intro N i hi
    have h1 : ¬((i : Int) < -(N : Int)) := by omega
    have h2 : ¬((N : Int) ≤ (i : Int)) := by omega
    rw [by_indices, if_neg (by simp)]
    have hfind : List.find?
        (fun x => decide (x < -(N : Int)) || decide ((N : Int) ≤ x))
        [(i : Int)] = none := by
      simp [List.find?, h1, h2]
    rw [hfind]
    have hres : resolve_index N (i : Int) = i := by
      rw [resolve_index, if_neg (by omega)]
      omega
    simp [make_unique, uniqueAux, hres]
  · intro N hN
    have h1 : ¬((-1 : Int) < -(N : Int)) := by omega
    have h2 : ¬((N : Int) ≤ (-1 : Int)) := by omega
    rw [by_indices, if_neg (by simp)]
    have hfind : List.find?
        (fun x => decide (x < -(N : Int)) || decide ((N : Int) ≤ x))
        [(-1 : Int)] = none := by
      simp [List.find?, h1, h2]
    rw [hfind]
    have hres : resolve_index N (-1 : Int) = N - 1 := by
      rw [resolve_index, if_pos (by omega)]
      omega
    simp [make_unique, uniqueAux, hres]
  · intro N cur idxs hex
    rcases hex with ⟨i, hi, hout⟩
    have hne : idxs ≠ [] := by rintro rfl; simp at hi
    have hsome : (idxs.find? (fun x =>
        decide (x < -(N : Int)) || decide ((N : Int) ≤ x))).isSome := by
      apply List.find?_isSome.mpr
      exact ⟨i, hi, by rcases hout with h | h <;> simp [h]⟩
    rcases Option.isSome_iff_exists.mp hsome with ⟨j, hj⟩
    refine ⟨j, List.mem_of_find?_eq_some hj, ?_, ?_⟩
    · have hp := List.find?_some hj
      simpa using hp
    · rw [by_indices, if_neg (by simp [List.isEmpty_iff, hne]), hj]

/-- C4 witness: a catalog of three entries. -/
theorem by_indices_spec_witness :
    by_indices 3 [] [(1 : Int)] = Except.ok [1] ∧
    by_indices 3 [] [(-1 : Int)] = Except.ok [2] ∧
    ∃ j ∈ [(5 : Int)], (j < -(1 : Int) ∨ (1 : Int) ≤ j) ∧
      by_indices 1 [0] [(5 : Int)] = Except.error (FlError.invalidIndex j) :=
  ⟨by_indices_spec.1 3 1 (by decide),
   by simpa using by_indices_spec.2.1 3 (by decide),
   by
     have h := by_indices_spec.2.2 1 [0] [(5 : Int)] ⟨5, by decide, by decide⟩
     simpa using h⟩

/-- Conclusion form shared by the C7 conjuncts: the result of a selection
step starting from the deduplicated history `hist` equals the
deduplication of `hist` extended by the step's additions — so it has no
duplicate and lists indices in order of their earliest addition (strictly
increasing first-occurrence position in the extended history). -/
def DedupExtends (hist res : List Nat) : Prop :=
  ∃ adds, res = make_unique (hist ++ adds) ∧ res.Nodup ∧
    res.Pairwise (fun a b => (hist ++ adds).indexOf a < (hist ++ adds).indexOf b)

theorem dedupExtends_of_eq (hist adds res : List Nat)
    (h : res = make_unique (make_unique hist ++ adds)) :
    DedupExtends hist res := by
  subst h
  rw [make_unique_append_make_unique]
  exact ⟨adds, rfl, nodup_make_unique _, indexOf_pairwise_make_unique _⟩

theorem dedupExtends_self (hist : List Nat) :
    DedupExtends hist (make_unique hist) :=
  ⟨[], by rw [List.append_nil], nodup_make_unique _, by
    have h := indexOf_pairwise_make_unique hist
    simpa using h⟩

/-- C7: after every selection operation that adds indices (`by_indices`,
`by_filter`, `by_hash`, `with_all`) applied to a selection of the form
`make_unique hist` — which every reachable selection is, the initial
empty selection being `make_unique []` and each operation preserving the
form — the resulting sequence contains no duplicates and lists each index
at the position of its earliest addition: it is the first-occurrence
deduplication of the whole addition history, ordered by strictly
increasing first-occurrence position. -/
theorem selection_ops_dedup (hist : List Nat) :
    (([] : List Nat) = make_unique []) ∧
    (∀ (N : Nat) (idxs : List Int) (res : List Nat),
      by_indices N (make_unique hist) idxs = Except.ok res →
      DedupExtends hist res) ∧
    (∀ matched : Option (List Nat),
      DedupExtends hist (by_filter (make_unique hist) matched)) ∧
    (∀ (lookup : String → Option Nat) (names : List String)
        (bailWhenMissing : Bool) (res : List Nat),
      by_hash (make_unique hist) lookup names bailWhenMissing =
        Except.ok res →
      DedupExtends hist res) ∧
    (∀ (N : Nat) (selectAll : Bool),
      DedupExtends hist (with_all N (make_unique hist) selectAll)) := by
  refine ⟨rfl, ?_, ?_, ?_, ?_⟩
  · intro N idxs res h
    by_cases he : idxs.isEmpty
    · rw [by_indices, if_pos he] at h
      injection h with h
      rw [← h]
      exact dedupExtends_self hist
    · rw [by_indices, if_neg he] at h
      split at h
      · simp at h
      · injection h with h
        exact dedupExtends_of_eq hist _ res h.symm
  · intro matched
    cases matched with
    | none => exact dedupExtends_self hist
    | some adds => exact dedupExtends_of_eq hist adds _ rfl
  · intro lookup names bailWhenMissing res h
    by_cases he : names.isEmpty
    · rw [by_hash, if_pos he] at h
      injection h with h
      rw [← h]
      exact dedupExtends_self hist
    · rw [by_hash, if_neg he] at h
      split at h
      · simp at h
      · injection h with h
        exact dedupExtends_of_eq hist _ res h.symm
  · intro N selectAll
    cases selectAll with
    | false => exact dedupExtends_self hist
    | true => exact dedupExtends_of_eq hist (List.range N) _ rfl

/-- C7 witness: adding index 1 to the selection `[0]` (history `[0]`). -/
theorem selection_ops_dedup_witness : DedupExtends [0] [0, 1] :=
  (selection_ops_dedup [0]).2.1 2 [(1 : Int)] [0, 1] (by rfl)

/-- C8: for every nonempty selection with fetched sizes,
`sort_by_size(true)` followed by `revert(true)` yields the selection in
descending size order, and `last(1)` applied after that yields exactly
one entry, of minimal size over the selection (the truncation operates on
the already-reversed order). -/
theorem sort_revert_last_smallest (sz : Nat → Nat) (cur : List Nat)
    (hne : cur ≠ []) :
    List.Sorted (fun a b => sz b ≤ sz a)
      (revert (sort_by_size sz cur true) true) ∧
    ∃ i, last (revert (sort_by_size sz cur true) true) (some 1) = [i] ∧
      i ∈ cur ∧ ∀ j ∈ cur, sz i ≤ sz j := by
  haveI htot : IsTotal Nat (fun a b => sz a ≤ sz b) :=
    ⟨fun a b => Nat.le_total (sz a) (sz b)⟩
  haveI htrans : IsTrans Nat (fun a b => sz a ≤ sz b) :=
    ⟨fun _ _ _ hab hbc => Nat.le_trans hab hbc⟩
  have hsorted := List.sorted_insertionSort (fun a b => sz a ≤ sz b) cur
  have hperm := List.perm_insertionSort (fun a b => sz a ≤ sz b) cur
  have hsort : sort_by_size sz cur true =
      cur.insertionSort (fun a b => sz a ≤ sz b) := rfl
  have hrev : ∀ l : List Nat, revert l true = l.reverse := fun _ => rfl
  obtain ⟨x, t, hs⟩ : ∃ x t,
      cur.insertionSort (fun a b => sz a ≤ sz b) = x :: t := by
    cases hcase : cur.insertionSort (fun a b => sz a ≤ sz b) with
    | nil =>
      exfalso
      apply hne
      rw [hcase] at hperm
      exact hperm.symm.eq_nil
    | cons x t => exact ⟨x, t, rfl⟩
  constructor
  · rw [hsort, hrev]
    exact List.pairwise_reverse.mpr hsorted
  · refine ⟨x, ?_, ?_, ?_⟩
    · rw [hsort, hrev, hs, List.reverse_cons]
      show (t.reverse ++ [x]).drop
        (if (t.reverse ++ [x]).length > 1
          then (t.reverse ++ [x]).length - 1 else 0) = [x]
      have hamt : (if (t.reverse ++ [x]).length > 1
          then (t.reverse ++ [x]).length - 1 else 0) = t.reverse.length := by
        simp only [List.length_append, List.length_reverse, List.length_cons,
          List.length_nil]
        split <;> omega
      rw [hamt, List.drop_left]
    · have hx : x ∈ cur.insertionSort (fun a b => sz a ≤ sz b) := by
        rw [hs]
        exact List.mem_cons_self _ _
      exact hperm.subset hx
    · intro j hj
      have hjs : j ∈ x :: t := by
        rw [← hs]
        exact hperm.symm.subset hj
      rw [hs] at hsorted
      rcases List.mem_cons.mp hjs with rfl | hjt
      · exact Nat.le_refl _
      · exact (List.sorted_cons.mp hsorted).1 j hjt

/-- C8 witness: the selection `[5, 3]` with the identity size map. -/
theorem sort_revert_last_smallest_witness :
    List.Sorted (fun a b => (fun n => n) b ≤ (fun n => n) a)
      (revert (sort_by_size (fun n => n) [5, 3] true) true) ∧
    ∃ i, last (revert (sort_by_size (fun n => n) [5, 3] true) true)
        (some 1) = [i] ∧
      i ∈ [5, 3] ∧ ∀ j ∈ [5, 3], (fun n => n) i ≤ (fun n => n) j :=
  sort_revert_last_smallest (fun n => n) [5, 3] (by decide)

/-- C10: `first(n)` and `last(n)` are total (no failure path); whenever
`n` is at least the number of selected indices — including on an empty
selection — both return the selection unchanged in content and order, and
with `n` absent both are the identity. -/
theorem first_last_spec (cur : List Nat) (n : Nat) :
    (cur.length ≤ n → first cur (some n) = cur) ∧
    (cur.length ≤ n → last cur (some n) = cur) ∧
    first cur none = cur ∧ last cur none = cur := by
  refine ⟨fun h => List.take_of_length_le h, fun h => ?_, rfl, rfl⟩
  show cur.drop (if cur.length > n then cur.length - n else 0) = cur
  rw [if_neg (by omega), List.drop_zero]

/-- C10 witness: `n = 7` on a two-element selection. -/
theorem first_last_spec_witness :
    first [4, 5] (some 7) = [4, 5] ∧ last [4, 5] (some 7) = [4, 5] :=
  ⟨(first_last_spec [4, 5] 7).1 (by decide),
   (first_last_spec [4, 5] 7).2.1 (by decide)⟩

/-! ## Verification claims -/

/-- C6: verification never aborts at the first hash mismatch: the sweep's
collected failures are exactly the mismatching entries of the whole
zipped selection (every entry is compared against its expected
folder-name hash), the run succeeds iff no entry mismatched, and when any
entry mismatched it fails only once the scan is complete, reporting the
count of failed entries. -/
theorem verify_no_short_circuit (files : List RFile)
    (actuals : List (List Char)) (hlen : files.length = actuals.length) :
    verify_sweep files actuals =
      ((files.zip actuals).filter (fun p =>
        decide (p.2 ≠ verify_expected_hash p.1))).map Prod.fst ∧
    (verify_outcome files actuals = Except.ok () ↔
      ∀ p ∈ files.zip actuals, p.2 = verify_expected_hash p.1) ∧
    ((∃ p ∈ files.zip actuals, p.2 ≠ verify_expected_hash p.1) →
      verify_outcome files actuals =
        Except.error (VerifyError.filesFailedToVerify
          (((files.zip actuals).filter (fun p =>
            decide (p.2 ≠ verify_expected_hash p.1))).length))) := by
  have hsweep := verify_sweep_eq files actuals hlen
  have hlenF : (verify_sweep files actuals).length =
      ((files.zip actuals).filter (fun p =>
        decide (p.2 ≠ verify_expected_hash p.1))).length := by
    rw [hsweep, List.length_map]
  refine ⟨hsweep, ?_, ?_⟩
  · constructor
    · intro hok p hp
      by_contra hne
      have hmem : p ∈ (files.zip actuals).filter (fun p =>
          decide (p.2 ≠ verify_expected_hash p.1)) :=
        List.mem_filter.mpr ⟨hp, by simpa using hne⟩
      have hpos : 0 < (verify_sweep files actuals).length := by
        rw [hlenF]
        exact List.length_pos.mpr (List.ne_nil_of_mem hmem)
      rw [verify_outcome, if_pos hpos] at hok
      simp at hok
    · intro hall
      have hnil : (files.zip actuals).filter (fun p =>
          decide (p.2 ≠ verify_expected_hash p.1)) = [] :=
        List.filter_eq_nil_iff.mpr (fun a ha => by simp [hall a ha])
      rw [verify_outcome, if_neg (by rw [hlenF, hnil]; simp)]
  · rintro ⟨p, hp, hne⟩
    have hmem : p ∈ (files.zip actuals).filter (fun p =>
        decide (p.2 ≠ verify_expected_hash p.1)) :=
      List.mem_filter.mpr ⟨hp, by simpa using hne⟩
    have hpos : 0 < (verify_sweep files actuals).length := by
      rw [hlenF]
      exact List.length_pos.mpr (List.ne_nil_of_mem hmem)
    rw [verify_outcome, if_pos hpos, hlenF]

/-- C6 witness: a two-entry selection where the second entry mismatches —
the run still reports it (count 1) after scanning both. -/
theorem verify_no_short_circuit_witness :
    verify_outcome
        [RFile.mk "aa".toList "f".toList, RFile.mk "bb".toList "g".toList]
        ["aa".toList, "xx".toList] =
      Except.error (VerifyError.filesFailedToVerify 1) := by
  have h := verify_no_short_circuit
    [RFile.mk "aa".toList "f".toList, RFile.mk "bb".toList "g".toList]
    ["aa".toList, "xx".toList] (by decide)
  have h3 := h.2.2
    ⟨(RFile.mk "bb".toList "g".toList, "xx".toList), by decide, by decide⟩
  have hX : (([RFile.mk "aa".toList "f".toList,
      RFile.mk "bb".toList "g".toList].zip
        ["aa".toList, "xx".toList]).filter (fun p =>
          decide (p.2 ≠ verify_expected_hash p.1))).length = 1 := by decide
  rw [hX] at h3
  exact h3

/-- C1 counterexample: with host `prefix_length = 40` and a stored entry
whose folder-name prefix `"abcdefgh"` has 8 characters, `Verify::run`
issues its remote-hash call for that entry with length 40 — the fixed
`session.host.prefix_length` of `src/cmd/verify.rs` line 85 — not the
entry's own folder-name length 8; consequently the hashing algorithm is
the one for length 40 (`sha512sum`), not the one the entry's own length
would select (`sha256sum`). -/
theorem verify_hash_length_not_per_entry :
    verify_hash_requests 40 [RFile.mk "abcdefgh".toList "file.txt".toList] =
      [([RFile.mk "abcdefgh".toList "file.txt".toList], 40)] ∧
    (verify_expected_hash
      (RFile.mk "abcdefgh".toList "file.txt".toList)).length = 8 ∧
    (40 : Nat) ≠ 8 ∧
    hasherFor 40 = Except.ok HashCmd.sha512sum ∧
    hasherFor 8 = Except.ok HashCmd.sha256sum ∧
    get_remote_hashes ["p"] 40 127 [] =
      Except.error (SshError.remoteToolMissing HashCmd.sha512sum) ∧
    get_remote_hashes ["p"] 8 127 [] =
      Except.error (SshError.remoteToolMissing HashCmd.sha256sum) :=
  ⟨rfl, rfl, by decide, rfl, rfl, rfl, rfl⟩

/-- C1 amended: for every entry in a verified selection, the expected
comparison hash is the entry's own folder-name prefix, but the hash
length used to compute the remote comparison hashes is the session
host's configured `prefix_length` — one fixed value shared by every chunk
and entry — and the hashing algorithm (256-bit vs 512-bit at the
32-character threshold) is chosen from that fixed length. -/
theorem verify_hash_requests_fixed_length (prefixLength : Nat)
    (files : List RFile) :
    (∀ req ∈ verify_hash_requests prefixLength files,
      req.2 = prefixLength ∧ hasherFor req.2 = hasherFor prefixLength) ∧
    (∀ f : RFile, verify_expected_hash f = f.parent) := by
  refine ⟨?_, fun f => rfl⟩
  intro req hreq
  rcases List.mem_map.mp hreq with ⟨c, -, rfl⟩
  exact ⟨rfl, rfl⟩

/-- C1 amended witness: the sole chunk request of a one-entry selection at
`prefix_length = 32` carries length 32. -/
theorem verify_hash_requests_fixed_length_witness :
    (([RFile.mk "abcdefgh".toList "x".toList], 32) : List RFile × Nat).2 = 32 ∧
    hasherFor (([RFile.mk "abcdefgh".toList "x".toList], 32) :
      List RFile × Nat).2 = hasherFor 32 :=
  (verify_hash_requests_fixed_length 32
    [RFile.mk "abcdefgh".toList "x".toList]).1
    ([RFile.mk "abcdefgh".toList "x".toList], 32) (by decide)

/-- C2 (code bug), evaluated at a failing input: the selection requests
paths `store/aaaaaaaa/one` (index 0) then `store/bbbbbbbb/two` (index 1),
but the remote `find` output lists the second file first.  `stat_bulk`
keeps the stats in find-output order, so `ensure_stats` — which zips the
returned stats positionally with the selection's indices — caches the
stat of `store/bbbbbbbb/two` (size 200) under index 0, although the find
data for index 0's own path reports size 100: the cached stat of a
selected index is not the stat of that index's path. -/
theorem stat_bulk_order_bug :
    stat_bulk
        [prepend_base_folder "store".toList "aaaaaaaa/one".toList,
         prepend_base_folder "store".toList "bbbbbbbb/two".toList]
        ["20 200 store/bbbbbbbb/two".toList,
         "10 100 store/aaaaaaaa/one".toList] =
      Except.ok [MFileStat.mk (some 200) (some 20),
        MFileStat.mk (some 100) (some 10)] ∧
    statCacheLookup (ensure_stats [0, 1]
        [MFileStat.mk (some 200) (some 20),
         MFileStat.mk (some 100) (some 10)]) 0 =
      some (MFileStat.mk (some 200) (some 20)) ∧
    parseStatLine "10 100 store/aaaaaaaa/one".toList =
      (some 10, some 100,
        prepend_base_folder "store".toList "aaaaaaaa/one".toList) ∧
    (MFileStat.mk (some 200) (some 20)).size ≠ some 100 :=
  ⟨rfl, rfl, rfl, by decide⟩

end Asfa
